import Mathlib

/-!
# Verification of the feed-forward neural network in `scripts/NN.py`

Shallow embedding of the network trainer: the numeric scalar type models an
IEEE float as either an exact value of a field `α` or `nan` (the only NaN
source the claims exercise is `np.array([]).mean(axis=0)`, i.e. the mean of
an empty sample list, together with its propagation through arithmetic).
Arrays are lists; matrices are lists of row vectors.  The in-place updates of
`NN.py` (`self.params['zs'][idx] = ...`, `d_weights[idx-1] = ...`,
`weights[i] -= ...`) become `List.set` on the corresponding lists, and the
`for` loops over `np.arange` become structural recursions over the loop
counter.  Randomness (`np.random.choice` in `minibatch_reader`) is passed in
as an explicit permutation parameter.  The real-valued activation and loss
formulas (`Sigmoid`, `CE.softmax`) are embedded separately over `ℝ`.
-/

namespace NN

/-- A float is either NaN or an exact value of the carrier field. -/
inductive Fl (α : Type) where
  | nan : Fl α
  | val : α → Fl α
deriving DecidableEq

instance {α : Type} [Add α] : Add (Fl α) :=
  ⟨fun a b => match a, b with
    | .val x, .val y => .val (x + y)
    | _, _ => .nan⟩

instance {α : Type} [Mul α] : Mul (Fl α) :=
  ⟨fun a b => match a, b with
    | .val x, .val y => .val (x * y)
    | _, _ => .nan⟩

instance {α : Type} [Sub α] : Sub (Fl α) :=
  ⟨fun a b => match a, b with
    | .val x, .val y => .val (x - y)
    | _, _ => .nan⟩

/-- Division by a natural number (used for `mean`); numpy's mean over an
empty axis yields NaN, which the caller reaches through the `n = 0` case. -/
def Fl.divNat {α : Type} [Field α] : Fl α → Nat → Fl α
  | _, 0 => .nan
  | .nan, _ => .nan
  | .val x, Nat.succ k => .val (x / ((k + 1 : Nat) : α))

variable {α : Type} [Field α]

/-- 1-D numpy array. -/
abbrev Vec (α : Type) := List (Fl α)

/-- 2-D numpy array as a list of rows. -/
abbrev Mat (α : Type) := List (Vec α)

/-- Elementwise vector sum (`a + b`). -/
def vecAdd (a b : Vec α) : Vec α := List.zipWith (· + ·) a b

/-- Elementwise vector difference (`a - b`). -/
def vecSub (a b : Vec α) : Vec α := List.zipWith (· - ·) a b

/-- Elementwise (Hadamard) product (`a * b`). -/
def hadamard (a b : Vec α) : Vec α := List.zipWith (· * ·) a b

/-- Dot product. -/
def dot (a b : Vec α) : Fl α := (List.zipWith (· * ·) a b).foldr (· + ·) (.val 0)

/-- `a @ W.T` for a row vector `a`: component `r` is `⟨W row r, a⟩`. -/
def matVec (W : Mat α) (a : Vec α) : Vec α := W.map (fun row => dot row a)

/-- Column `j` of a matrix. -/
def getCol (W : Mat α) (j : Nat) : Vec α := W.map (fun row => row.getD j .nan)

/-- `g.T @ W` for a column vector `g`: component `j` is `⟨g, W column j⟩`. -/
def vecMat (g : Vec α) (W : Mat α) : Vec α :=
  (List.range (W.headD []).length).map (fun j => dot g (getCol W j))

/-- Outer product `g @ a.T` of a column `g` and a row `a`. -/
def outer (g a : Vec α) : Mat α := g.map (fun gi => a.map (fun aj => gi * aj))

/-- Scalar times vector. -/
def smulVec (c : Fl α) (v : Vec α) : Vec α := v.map (fun x => c * x)

/-- Scalar times matrix. -/
def smulMat (c : Fl α) (M : Mat α) : Mat α := M.map (smulVec c)

/-- Elementwise matrix sum. -/
def matAdd (A B : Mat α) : Mat α := List.zipWith vecAdd A B

/-- Elementwise matrix difference. -/
def matSub (A B : Mat α) : Mat α := List.zipWith vecSub A B

/-- Elementwise mean of a nonempty list of equally-shaped matrices
(`np.array(tensor).mean(axis=0)`); the empty case is handled by the caller. -/
def matMean (l : List (Mat α)) : Mat α :=
  match l with
  | [] => []
  | m :: ms => ((ms.foldl matAdd m).map (fun row => row.map (fun x => x.divNat l.length)))

/-- Elementwise mean of a nonempty list of equally-shaped vectors. -/
def vecMean (l : List (Vec α)) : Vec α :=
  match l with
  | [] => []
  | v :: vs => (vs.foldl vecAdd v).map (fun x => x.divNat l.length)

/-- `[s, s+1, ..., s+k-1]`, our model of `np.arange`. -/
def upList (s : Nat) : Nat → List Nat
  | 0 => []
  | k + 1 => s :: upList (s + 1) k

/-- Activation object: `activation` and `derivative`, both elementwise maps. -/
structure ActFn (α : Type) where
  act : Vec α → Vec α
  deriv : Vec α → Vec α

/-- A do-nothing activation, used only as the `getD` default for the input
layer's empty activation slot (never reached on well-formed indices). -/
def defaultAct : ActFn α := ⟨fun v => v, fun v => v⟩

/-- Loss object: scalar loss and its derivative w.r.t. the prediction. -/
structure LossFn (α : Type) where
  loss : Vec α → Vec α → Fl α
  deriv : Vec α → Vec α → Vec α

/-- `np.full(w, v)`: broadcast `v` to width `w` (identity when `v` already
has width `w`, replication of the scalar payload otherwise). -/
def fillTo (w : Nat) (v : Vec α) : Vec α :=
  if v.length = w then v else List.replicate w (v.headD .nan)

/-- The state of `NN.NeuralNetwork`: `widths` and `f` are the two columns of
`self.layers`, the remaining fields are `params['weights']`, `params['bias']`,
`params['zs']`, `params['as']`, `self.d_weights`, `self.d_bias` and
`self.learning_rate`. -/
structure Network (α : Type) where
  widths : List Nat
  f : List (ActFn α)
  weights : List (Mat α)
  bias : List (Vec α)
  zs : List (Vec α)
  acts : List (Vec α)
  d_weights : List (List (Mat α))
  d_bias : List (List (Vec α))
  learning_rate : Fl α

/-- `self.layers.shape[0]`. -/
def Network.numLayers (net : Network α) : Nat := net.widths.length

/-- Structural well-formedness: the parallel per-layer lists have the lengths
`_initialize_params` establishes, and there are at least two layers (the
spec's data-model invariant). -/
def Network.wf (net : Network α) : Prop :=
  2 ≤ net.widths.length ∧
  net.f.length = net.widths.length ∧
  net.weights.length = net.widths.length - 1 ∧
  net.bias.length = net.widths.length - 1 ∧
  net.zs.length = net.widths.length ∧
  net.acts.length = net.widths.length

/-- The body of `forward`'s loop `for idx in np.arange(1, n)`, as a
recursion on the number of remaining iterations; the state is the pair
`(params['zs'], params['as'])` that the loop mutates in place.  Each
iteration computes `zs[idx] = (as[idx-1] @ w.T) + b` and
`as[idx] = f[idx].activation(zs[idx])`. -/
def forwardLoop (net : Network α) : Nat → Nat → List (Vec α) × List (Vec α) →
    List (Vec α) × List (Vec α)
  | _, 0, st => st
  | idx, count + 1, (zs, acts) =>
      let a := acts.getD (idx - 1) []
      let w := net.weights.getD (idx - 1) []
      let b := net.bias.getD (idx - 1) []
      let z := vecAdd (matVec w a) b
      let zs' := zs.set idx z
      let acts' := acts.set idx ((net.f.getD idx defaultAct).act z)
      forwardLoop net (idx + 1) count (zs', acts')

/-- `forward(x)`: writes `x` into `as[0]`, runs the layer loop, and returns
the updated network together with `params['as'][-1]`. -/
def Network.forward (net : Network α) (x : Vec α) : Network α × Vec α :=
  let n := net.numLayers
  let st := forwardLoop net 1 (n - 1) (net.zs, net.acts.set 0 x)
  let net' := { net with zs := st.1, acts := st.2 }
  (net', st.2.getD (st.2.length - 1) [])

/-- The body of `backward`'s loop `for idx in np.arange(n)[::-1]`, stopping
at the `break` just before the input layer; the recursion counter is the
current `idx`.  The state is `(cache_dC_dA_dZ, d_weights, d_bias)`, where
`d_weights`/`d_bias` start as (shallow) copies of the parameter lists and the
cache grows with the most recent combined term in front (`cache[-1]` of the
Python list is the head here). -/
def backwardLoop (net : Network α) (y : Vec α) (Lf : LossFn α) (n : Nat) :
    Nat → List (Vec α) × List (Mat α) × List (Vec α) →
    List (Vec α) × List (Mat α) × List (Vec α)
  | 0, st => st
  | i + 1, (cache, dW, dB) =>
      let idx := i + 1
      let dC_dA :=
        if idx = n - 1 then
          fillTo (net.widths.getD idx 0) (Lf.deriv (net.acts.getD idx []) y)
        else
          vecMat (cache.headD []) (net.weights.getD idx [])
      let dA_dZ := (net.f.getD idx defaultAct).deriv (net.acts.getD idx [])
      let dZ_dW := net.acts.getD (idx - 1) []
      let g := hadamard dC_dA dA_dZ
      let dC_dW := smulMat net.learning_rate (outer g dZ_dW)
      let dC_dB := smulVec net.learning_rate g
      backwardLoop net y Lf n i (g :: cache, dW.set (idx - 1) dC_dW, dB.set (idx - 1) dC_dB)

/-- `backward(y, Loss)`: runs the reversed layer loop and appends the
resulting per-layer gradient lists to the accumulators. -/
def Network.backward (net : Network α) (y : Vec α) (Lf : LossFn α) : Network α :=
  let n := net.numLayers
  let res := backwardLoop net y Lf n (n - 1) ([], net.weights, net.bias)
  { net with d_weights := net.d_weights ++ [res.2.1], d_bias := net.d_bias ++ [res.2.2] }

/-- The update `step()` applies to `params['weights'][i]`: stack the `i`-th
entry of every accumulated per-sample gradient, take the mean across the
sample axis, and subtract it.  With no accumulated samples,
`np.array([]).mean(axis=0)` is NaN and `w -= nan` turns every entry NaN. -/
def stepW (net : Network α) (i : Nat) : Mat α :=
  let tensor := net.d_weights.map (fun s => s.getD i [])
  match tensor with
  | [] => (net.weights.getD i []).map (fun row => row.map (fun x => x - Fl.nan))
  | _ => matSub (net.weights.getD i []) (matMean tensor)

/-- The update `step()` applies to `params['bias'][i]` (same reduction). -/
def stepB (net : Network α) (i : Nat) : Vec α :=
  let tensor := net.d_bias.map (fun s => s.getD i [])
  match tensor with
  | [] => (net.bias.getD i []).map (fun x => x - Fl.nan)
  | _ => vecSub (net.bias.getD i []) (vecMean tensor)

/-- Write `g i` into slot `i` of a list for each index in turn (the in-place
indexed updates of `step`'s loop). -/
def setEach {β : Type} (g : Nat → β) : List Nat → List β → List β
  | [], l => l
  | i :: is, l => setEach g is (l.set i (g i))

/-- `step()`: the loop `for i in np.arange(len(params['weights']))` updating
`weights[i] -= mean` and `bias[i] -= mean` in place. -/
def Network.step (net : Network α) : Network α :=
  let idxs := upList 0 net.weights.length
  { net with
    weights := setEach (stepW net) idxs net.weights,
    bias := setEach (stepB net) idxs net.bias }

/-- `clear()`: empty both accumulators. -/
def Network.clear (net : Network α) : Network α :=
  { net with d_weights := [], d_bias := [] }

/-- One epoch of `fit`: forward and backward over `zip(X, Y)` in dataset
order (the per-sample loss is computed only for verbose reporting and does
not influence the parameters), then a single `step()` followed by
`clear()`. -/
def Network.fitEpoch (net : Network α) (Lf : LossFn α) (X Y : List (Vec α)) : Network α :=
  let nt := (X.zip Y).foldl
    (fun m xy => Network.backward (Network.forward m xy.1).1 xy.2 Lf) net
  Network.clear (Network.step nt)

/-- `fit(X, Y, Loss, n_epochs)`: iterate the epoch body. -/
def Network.fit (net : Network α) (Lf : LossFn α) (X Y : List (Vec α)) :
    Nat → Network α
  | 0 => net
  | e + 1 => Network.fit (Network.fitEpoch net Lf X Y) Lf X Y e

/-- Slice `perm[i:j]`. -/
def slice {β : Type} (l : List β) (i j : Nat) : List β := (l.drop i).take (j - i)

/-- The `while` loop of `minibatch_reader`: starting at offset `i`, yield
`random_indices[i:min(i+bs, n)]` until `i ≥ n`.  The fuel argument makes the
recursion structural; `n + 1` iterations suffice for every `bs ≥ 1`, and for
`bs = 0` with `n > 0` the source loops forever yielding empty slices (a case
no claim exercises), which the fuel truncates. -/
def sliceChunks (perm : List Nat) (n bs : Nat) : Nat → Nat → List (List Nat)
  | 0, _ => []
  | fuel + 1, i =>
      if n ≤ i then []
      else slice perm i (min (i + bs) n) :: sliceChunks perm n bs fuel (i + bs)

/-- `minibatch_reader(*args, batch_size)`: assert that all leading
dimensions agree (`np.unique(...).size == 1`), then chunk a permutation of
the indices.  The permutation drawn by `np.random.choice(n, size=n,
replace=False)` is passed in as the explicit parameter `perm`; the
assertion failure is the `.error` case. -/
def minibatchReader (lens : List Nat) (perm : List Nat) (bs : Nat) :
    Except Unit (List (List Nat)) :=
  if lens.dedup.length = 1 then
    .ok (sliceChunks perm (lens.headD 0) bs (lens.headD 0 + 1) 0)
  else
    .error ()

/-- One epoch of `minibatch_fit`: for each index batch from the reader,
subset `X` and `Y`, run forward/backward over the batch, then `step()` and
`clear()` once per batch.  The reader's assertion aborts the epoch before
any forward/backward/step work. -/
def Network.minibatchFitEpoch (net : Network α) (Lf : LossFn α)
    (X Y : List (Vec α)) (perm : List Nat) (bs : Nat) : Except Unit (Network α) :=
  match minibatchReader [X.length, Y.length] perm bs with
  | .error e => .error e
  | .ok inds => .ok (inds.foldl (fun nt ind =>
      let subX := ind.map (fun k => X.getD k [])
      let subY := ind.map (fun k => Y.getD k [])
      let nt2 := (subX.zip subY).foldl
        (fun m xy => Network.backward (Network.forward m xy.1).1 xy.2 Lf) nt
      Network.clear (Network.step nt2)) net)

/-! ## Closed-form recurrences used to state the forward/backward claims -/

/-- The post-activation the spec assigns to layer `i` on input `x`:
`a_0 = x`, `a_{i+1} = f_{i+1}(W_{i+1} a_i + b_{i+1})`. -/
def aSpec (net : Network α) (x : Vec α) : Nat → Vec α
  | 0 => x
  | i + 1 => (net.f.getD (i + 1) defaultAct).act
      (vecAdd (matVec (net.weights.getD i []) (aSpec net x i)) (net.bias.getD i []))

/-- The pre-activation the spec assigns to layer `i ≥ 1` on input `x`:
`z_i = a_{i-1} @ W_i^T + b_i`. -/
def zSpec (net : Network α) (x : Vec α) (i : Nat) : Vec α :=
  vecAdd (matVec (net.weights.getD (i - 1) []) (aSpec net x (i - 1)))
    (net.bias.getD (i - 1) [])

/-- The combined backward term `g` of the layer `k` steps below the output
layer (layer index `numLayers - 1 - k`): at the output layer the loss
derivative is broadcast to the layer width and multiplied by the activation
derivative at the cached post-activation; one layer deeper the previous `g`
is pushed through the weight matrix above. -/
def gSpec (net : Network α) (y : Vec α) (Lf : LossFn α) : Nat → Vec α
  | 0 =>
      hadamard
        (fillTo (net.widths.getD (net.numLayers - 1) 0)
          (Lf.deriv (net.acts.getD (net.numLayers - 1) []) y))
        ((net.f.getD (net.numLayers - 1) defaultAct).deriv
          (net.acts.getD (net.numLayers - 1) []))
  | k + 1 =>
      hadamard
        (vecMat (gSpec net y Lf k) (net.weights.getD (net.numLayers - 1 - (k + 1)) []))
        ((net.f.getD (net.numLayers - 1 - (k + 1)) defaultAct).deriv
          (net.acts.getD (net.numLayers - 1 - (k + 1)) []))

/-- The combined backward term `g` at layer index `i` (for
`1 ≤ i ≤ numLayers - 1`), i.e. `gSpec` re-indexed by layer. -/
def gAt (net : Network α) (y : Vec α) (Lf : LossFn α) (i : Nat) : Vec α :=
  gSpec net y Lf (net.numLayers - 1 - i)

/-- The weight gradient `backward` produces for layer `i`:
`learning_rate * (g_i @ a_{i-1}^T)`. -/
def wGrad (net : Network α) (y : Vec α) (Lf : LossFn α) (i : Nat) : Mat α :=
  smulMat net.learning_rate (outer (gAt net y Lf i) (net.acts.getD (i - 1) []))

/-- The bias gradient `backward` produces for layer `i`:
`learning_rate * g_i`, flattened. -/
def bGrad (net : Network α) (y : Vec α) (Lf : LossFn α) (i : Nat) : Vec α :=
  smulVec net.learning_rate (gAt net y Lf i)

/-- The per-layer weight gradients one `backward` call appends: entry `i - 1`
is `learning_rate * (g_i @ a_{i-1}^T)` for layer `i = 1, …, numLayers-1`. -/
def dwSpec (net : Network α) (y : Vec α) (Lf : LossFn α) : List (Mat α) :=
  (upList 1 (net.numLayers - 1)).map (wGrad net y Lf)

/-- The per-layer bias gradients one `backward` call appends: entry `i - 1`
is `learning_rate * g_i` for layer `i = 1, …, numLayers-1`. -/
def dbSpec (net : Network α) (y : Vec α) (Lf : LossFn α) : List (Vec α) :=
  (upList 1 (net.numLayers - 1)).map (bGrad net y Lf)

/-- The cache contents just before the backward loop processes layer `j`:
the combined terms of layers `j+1, …, numLayers-1`, most recent first. -/
def cacheA (net : Network α) (y : Vec α) (Lf : LossFn α) (j : Nat) : List (Vec α) :=
  (upList (j + 1) (net.numLayers - 1 - j)).map (gAt net y Lf)

/-! ## Real-valued activation and loss formulas (`Sigmoid`, `CE`) -/

/-- `np.max` of a (nonempty) array. -/
def listMax : List ℝ → ℝ
  | [] => 0
  | x :: xs => xs.foldl max x

/-- `CE.softmax`: exponentials of the max-shifted entries, normalized by
their sum. -/
noncomputable def CE.softmax (x : List ℝ) : List ℝ :=
  let exps := x.map (fun v => Real.exp (v - listMax x))
  exps.map (fun e => e / exps.sum)

/-- `CE.__loss__`: `np.sum(-y * np.log(softmax(x)))`. -/
noncomputable def CE.loss (x y : List ℝ) : ℝ :=
  (List.zipWith (fun yi pi => -yi * Real.log pi) y (CE.softmax x)).sum

/-- `CE.__derivative__`: `softmax(x) - y`. -/
noncomputable def CE.derivative (x y : List ℝ) : List ℝ :=
  List.zipWith (· - ·) (CE.softmax x) y

/-- `Sigmoid.__positive__`, applied to the elements with `x ≥ 0`. -/
noncomputable def sigmoidPos (x : ℝ) : ℝ := 1 / (1 + Real.exp (-x))

/-- `Sigmoid.__negative__`, applied to the elements with `x < 0`. -/
noncomputable def sigmoidNeg (x : ℝ) : ℝ := Real.exp x / (1 + Real.exp x)

/-- One element of `Sigmoid.__activation__`: the masked assignments
`sig[mask_p] = __positive__(x[mask_p])`, `sig[mask_n] = __negative__(x[mask_n])`
select per element by the sign of the input. -/
noncomputable def sigmoidFn (x : ℝ) : ℝ :=
  if 0 ≤ x then sigmoidPos x else sigmoidNeg x

/-- `Sigmoid.__activation__` over an array. -/
noncomputable def Sigmoid.activation (l : List ℝ) : List ℝ := l.map sigmoidFn

/-- `Sigmoid.__derivative__`: `sig * (1 - sig)` with `sig` recomputed via the
stabilized activation. -/
noncomputable def Sigmoid.derivative (l : List ℝ) : List ℝ :=
  (Sigmoid.activation l).map (fun s => s * (1 - s))

/-- Well-formedness is a decidable conjunction of length conditions. -/
instance (net : Network α) : Decidable net.wf := by
  unfold Network.wf; infer_instance

/-! ## Concrete networks used by the witnesses

The carrier is the field `ZMod 101`: its arithmetic evaluates inside
`decide`, and every quantity below is small enough that no wrap-around at
101 occurs. -/

instance : Fact (Nat.Prime 101) := ⟨by norm_num⟩

/-- A pass-through activation with constant derivative 1 (the `Free`
activation of `NN.py`, with the scalar derivative broadcast to the array
shape it multiplies into). -/
def idAct : ActFn (ZMod 101) := ⟨fun v => v, fun v => v.map (fun _ => Fl.val 1)⟩

/-- A concrete loss whose derivative is `predicted - actual` (the shape of
`CE.__derivative__`). -/
def diffLoss : LossFn (ZMod 101) := ⟨fun _ _ => Fl.val 0, fun x y => vecSub x y⟩

/-- A three-layer network (one interior layer) with trivial activations and
concrete caches, weights, and biases. -/
def exNet3 : Network (ZMod 101) where
  widths := [1, 1, 1]
  f := [idAct, idAct, idAct]
  weights := [[[Fl.val 1]], [[Fl.val 2]]]
  bias := [[Fl.val 0], [Fl.val 0]]
  zs := [[Fl.val 0], [Fl.val 0], [Fl.val 0]]
  acts := [[Fl.val 3], [Fl.val 3], [Fl.val 6]]
  d_weights := []
  d_bias := []
  learning_rate := Fl.val 1

/-- A minimal two-layer network with empty gradient accumulators. -/
def exNet2 : Network (ZMod 101) where
  widths := [1, 1]
  f := [idAct, idAct]
  weights := [[[Fl.val 1]]]
  bias := [[Fl.val 0]]
  zs := [[Fl.val 0], [Fl.val 0]]
  acts := [[Fl.val 0], [Fl.val 0]]
  d_weights := []
  d_bias := []
  learning_rate := Fl.val 1

/-- `exNet2` with one accumulated per-sample gradient. -/
def exNet2g : Network (ZMod 101) :=
  { exNet2 with d_weights := [[[[Fl.val 4]]]], d_bias := [[[Fl.val 2]]] }

/-! ## Helper lemmas -/

/-- Summing after dividing every entry by the same constant divides the sum. -/
theorem sum_map_div (l : List ℝ) (c : ℝ) :
    (l.map (fun e => e / c)).sum = l.sum / c := by
  induction l with
  | nil => simp
  | cons x xs ih => simp [ih, add_div]

/-- `foldl max` commutes with adding a constant to the seed and the list. -/
theorem foldl_max_add (xs : List ℝ) (c : ℝ) :
    ∀ a : ℝ, ((xs.map (fun v => v + c)).foldl max (a + c)) = xs.foldl max a + c := by
  induction xs with
  | nil => intro a; rfl
  | cons x xs ih =>
      intro a
      simpa [max_add_add_right] using ih (max a x)

/-- `np.max` commutes with adding a constant, on nonempty arrays. -/
theorem listMax_map_add (l : List ℝ) (hl : l ≠ []) (c : ℝ) :
    listMax (l.map (fun v => v + c)) = listMax l + c := by
  cases l with
  | nil => exact absurd rfl hl
  | cons x xs => simpa [listMax] using foldl_max_add xs c x

/-- Scalar sigmoid: the stabilized branches both equal `1/(1+exp(-t))`. -/
theorem sigmoidFn_eq (t : ℝ) : sigmoidFn t = 1 / (1 + Real.exp (-t)) := by
  unfold sigmoidFn sigmoidPos sigmoidNeg
  by_cases h : 0 ≤ t
  · simp [h]
  · have he : Real.exp t ≠ 0 := (Real.exp_pos t).ne'
    have hd : 0 < 1 + Real.exp (-t) := by positivity
    simp only [h, if_false]
    rw [Real.exp_neg]
    field_simp
    ring

/-- Scalar sigmoid bounds. -/
theorem sigmoidFn_bounds (t : ℝ) : 0 ≤ sigmoidFn t ∧ sigmoidFn t ≤ 1 := by
  rw [sigmoidFn_eq]
  have h : 0 < 1 + Real.exp (-t) := by positivity
  constructor
  · positivity
  · rw [div_le_one h]
    have := (Real.exp_pos (-t)).le
    linarith

/-- `getD` after `set` at the written index. -/
theorem getD_set_eq {β : Type} (l : List β) (i : Nat) (a d : β) (h : i < l.length) :
    (l.set i a).getD i d = a := by
  simp [List.getD_eq_getElem?_getD, List.getElem?_set_self h]

/-- `getD` after `set` at a different index. -/
theorem getD_set_ne {β : Type} (l : List β) (i j : Nat) (a d : β) (h : i ≠ j) :
    (l.set i a).getD j d = l.getD j d := by
  simp [List.getD_eq_getElem?_getD, List.getElem?_set_ne h]

/-- Loop invariant for `forward`'s layer loop: starting at layer `idx ≥ 1`
with the previous layer's activation cache already holding `aSpec (idx-1)`,
running `c` more iterations leaves indices below `idx` untouched and writes
`zSpec` / `aSpec` into indices `idx, …, idx+c-1`. -/
theorem forwardLoop_spec (net : Network α) (x : Vec α) :
    ∀ (c idx : Nat) (zs acts : List (Vec α)),
      1 ≤ idx →
      zs.length = net.numLayers →
      acts.length = net.numLayers →
      idx + c ≤ net.numLayers →
      acts.getD (idx - 1) [] = aSpec net x (idx - 1) →
      ((forwardLoop net idx c (zs, acts)).1.length = net.numLayers ∧
       (forwardLoop net idx c (zs, acts)).2.length = net.numLayers ∧
       (∀ i, i < idx → (forwardLoop net idx c (zs, acts)).2.getD i [] = acts.getD i []) ∧
       (∀ i, idx ≤ i → i < idx + c →
          (forwardLoop net idx c (zs, acts)).2.getD i [] = aSpec net x i) ∧
       (∀ i, i < idx → (forwardLoop net idx c (zs, acts)).1.getD i [] = zs.getD i []) ∧
       (∀ i, idx ≤ i → i < idx + c →
          (forwardLoop net idx c (zs, acts)).1.getD i [] = zSpec net x i)) := by
  intro c
  induction c with
  | zero =>
      intro idx zs acts h1 hz ha hle hsp
      exact ⟨hz, ha, fun i _ => rfl, fun i hi hi' => by omega,
             fun i _ => rfl, fun i hi hi' => by omega⟩
  | succ c ih =>
      intro idx zs acts h1 hz ha hle hsp
      obtain ⟨k, rfl⟩ : ∃ k, idx = k + 1 := ⟨idx - 1, by omega⟩
      simp only [Nat.add_sub_cancel] at hsp
      have hkn : k + 1 < net.numLayers := by omega
      have hstep : forwardLoop net (k + 1) (c + 1) (zs, acts)
          = forwardLoop net (k + 2) c
              (zs.set (k + 1) (zSpec net x (k + 1)),
               acts.set (k + 1) (aSpec net x (k + 1))) := by
        simp only [forwardLoop, Nat.add_sub_cancel, hsp]
        rfl
      rw [hstep]
      have hz' : (zs.set (k + 1) (zSpec net x (k + 1))).length = net.numLayers := by
        simpa using hz
      have ha' : (acts.set (k + 1) (aSpec net x (k + 1))).length = net.numLayers := by
        simpa using ha
      have hsp' : (acts.set (k + 1) (aSpec net x (k + 1))).getD (k + 2 - 1) []
          = aSpec net x (k + 2 - 1) := by
        simpa using getD_set_eq acts (k + 1) (aSpec net x (k + 1)) [] (by omega)
      obtain ⟨L1, L2, A1, A2, Z1, Z2⟩ :=
        ih (k + 2) (zs.set (k + 1) (zSpec net x (k + 1)))
          (acts.set (k + 1) (aSpec net x (k + 1))) (by omega) hz' ha' (by omega) hsp'
      refine ⟨L1, L2, ?_, ?_, ?_, ?_⟩
      · intro i hi
        rw [A1 i (by omega), getD_set_ne acts (k + 1) i _ [] (by omega)]
      · intro i hi hi'
        by_cases hik : i = k + 1
        · subst hik
          rw [A1 (k + 1) (by omega)]
          exact getD_set_eq acts (k + 1) _ [] (by omega)
        · exact A2 i (by omega) (by omega)
      · intro i hi
        rw [Z1 i (by omega), getD_set_ne zs (k + 1) i _ [] (by omega)]
      · intro i hi hi'
        by_cases hik : i = k + 1
        · subst hik
          rw [Z1 (k + 1) (by omega)]
          exact getD_set_eq zs (k + 1) _ [] (by omega)
        · exact Z2 i (by omega) (by omega)

/-- `setEach` preserves list length. -/
theorem setEach_length {β : Type} (g : Nat → β) :
    ∀ (is : List Nat) (l : List β), (setEach g is l).length = l.length := by
  intro is
  induction is with
  | nil => intro l; rfl
  | cons i is ih => intro l; rw [setEach, ih, List.length_set]

/-- Indices below the first written index are untouched by `setEach` over an
ascending index block. -/
theorem setEach_upList_getD_lo {β : Type} (g : Nat → β) :
    ∀ (m s : Nat) (l : List β) (j : Nat) (d : β), j < s →
      (setEach g (upList s m) l).getD j d = l.getD j d := by
  intro m
  induction m with
  | zero => intro s l j d _; rfl
  | succ m ih =>
      intro s l j d hj
      rw [upList, setEach, ih (s + 1) _ j d (by omega),
        getD_set_ne l s j _ d (by omega)]

/-- Indices inside the written block receive their `g` value. -/
theorem setEach_upList_getD {β : Type} (g : Nat → β) :
    ∀ (m s : Nat) (l : List β) (j : Nat) (d : β),
      s ≤ j → j < s + m → j < l.length →
      (setEach g (upList s m) l).getD j d = g j := by
  intro m
  induction m with
  | zero => intro s l j d h1 h2; omega
  | succ m ih =>
      intro s l j d h1 h2 h3
      rw [upList, setEach]
      by_cases hjs : j = s
      · subst hjs
        rw [setEach_upList_getD_lo g m (j + 1) _ j d (by omega)]
        exact getD_set_eq l j (g j) d h3
      · exact ih (s + 1) _ j d (by omega) (by omega) (by simpa using h3)

/-- Length of an ascending index block. -/
theorem upList_length : ∀ (m s : Nat), (upList s m).length = m := by
  intro m
  induction m with
  | zero => intro s; rfl
  | succ m ih => intro s; rw [upList, List.length_cons, ih]

/-- `getD` of a map over an ascending index block. -/
theorem upList_map_getD {β : Type} (f : Nat → β) :
    ∀ (m s j : Nat) (d : β), j < m → ((upList s m).map f).getD j d = f (s + j) := by
  intro m
  induction m with
  | zero => intro s j d h; omega
  | succ m ih =>
      intro s j d h
      rw [upList, List.map_cons]
      cases j with
      | zero => rfl
      | succ j =>
          rw [List.getD_cons_succ, ih (s + 1) j d (by omega)]
          congr 1
          omega

/-- Two lists agreeing in length and at every `getD` position are equal. -/
theorem list_eq_of_getD {β : Type} (l1 l2 : List β) (d : β)
    (hl : l1.length = l2.length)
    (h : ∀ j, j < l1.length → l1.getD j d = l2.getD j d) : l1 = l2 := by
  apply List.ext_getElem hl
  intro i h1 h2
  have := h i h1
  rwa [List.getD_eq_getElem?_getD, List.getD_eq_getElem?_getD,
    List.getElem?_eq_getElem h1, List.getElem?_eq_getElem h2] at this

/-- Peeling one layer off the backward cache. -/
theorem cacheA_cons (net : Network α) (y : Vec α) (Lf : LossFn α) (m : Nat)
    (hm : m + 1 ≤ net.numLayers - 1) :
    cacheA net y Lf m = gAt net y Lf (m + 1) :: cacheA net y Lf (m + 1) := by
  unfold cacheA
  obtain ⟨K, hK⟩ : ∃ K, net.numLayers - 1 - m = K + 1 := ⟨net.numLayers - 2 - m, by omega⟩
  rw [hK, show net.numLayers - 1 - (m + 1) = K from by omega, upList, List.map_cons]

/-- The combined term computed by the body of the backward loop at layer
`idx = m + 1` equals `gAt (m + 1)`. -/
theorem gAt_body (net : Network α) (y : Vec α) (Lf : LossFn α) (m : Nat)
    (hm : m + 1 ≤ net.numLayers - 1) :
    hadamard
      (if m + 1 = net.numLayers - 1 then
        fillTo (net.widths.getD (m + 1) 0) (Lf.deriv (net.acts.getD (m + 1) []) y)
      else
        vecMat ((cacheA net y Lf (m + 1)).headD []) (net.weights.getD (m + 1) []))
      ((net.f.getD (m + 1) defaultAct).deriv (net.acts.getD (m + 1) []))
      = gAt net y Lf (m + 1) := by
  by_cases hlast : m + 1 = net.numLayers - 1
  · rw [if_pos hlast]
    unfold gAt
    rw [show net.numLayers - 1 - (m + 1) = 0 from by omega]
    rw [gSpec, hlast]
  · rw [if_neg hlast]
    obtain ⟨K, hK⟩ : ∃ K, net.numLayers - 1 - (m + 1) = K + 1 :=
      ⟨net.numLayers - 1 - (m + 2), by omega⟩
    have hhead : (cacheA net y Lf (m + 1)).headD [] = gSpec net y Lf K := by
      rw [cacheA_cons net y Lf (m + 1) (by omega)]
      show gAt net y Lf (m + 2) = gSpec net y Lf K
      unfold gAt
      rw [show net.numLayers - 1 - (m + 2) = K from by omega]
    rw [hhead]
    unfold gAt
    rw [hK, gSpec, show net.numLayers - 1 - (K + 1) = m + 1 from by omega]

/-- Loop invariant for `backward`'s reversed layer loop: processing layers
`m, m-1, …, 1` with the cache holding the combined terms of the layers above
`m` writes `wGrad (j+1)` / `bGrad (j+1)` into slot `j` for every `j < m` and
leaves the remaining slots untouched. -/
theorem backwardLoop_spec (net : Network α) (y : Vec α) (Lf : LossFn α) :
    ∀ (m : Nat), m ≤ net.numLayers - 1 →
    ∀ (dW : List (Mat α)) (dB : List (Vec α)),
      dW.length = net.numLayers - 1 → dB.length = net.numLayers - 1 →
      ((backwardLoop net y Lf net.numLayers m (cacheA net y Lf m, dW, dB)).2.1.length
         = dW.length) ∧
      ((backwardLoop net y Lf net.numLayers m (cacheA net y Lf m, dW, dB)).2.2.length
         = dB.length) ∧
      (∀ j, (backwardLoop net y Lf net.numLayers m (cacheA net y Lf m, dW, dB)).2.1.getD j []
         = if j < m then wGrad net y Lf (j + 1) else dW.getD j []) ∧
      (∀ j, (backwardLoop net y Lf net.numLayers m (cacheA net y Lf m, dW, dB)).2.2.getD j []
         = if j < m then bGrad net y Lf (j + 1) else dB.getD j []) := by
  intro m
  induction m with
  | zero =>
      intro _ dW dB _ _
      exact ⟨rfl, rfl, fun j => by simp [backwardLoop], fun j => by simp [backwardLoop]⟩
  | succ m ih =>
      intro hm dW dB hdW hdB
      have hstep : backwardLoop net y Lf net.numLayers (m + 1)
            (cacheA net y Lf (m + 1), dW, dB)
          = backwardLoop net y Lf net.numLayers m
            (cacheA net y Lf m,
             dW.set m (wGrad net y Lf (m + 1)),
             dB.set m (bGrad net y Lf (m + 1))) := by
        rw [backwardLoop]
        rw [cacheA_cons net y Lf m hm]
        have hg := gAt_body net y Lf m hm
        simp only [Nat.add_sub_cancel] at hg ⊢
        rw [hg]
        rfl
      rw [hstep]
      obtain ⟨hL1, hL2, hW, hB⟩ := ih (by omega)
        (dW.set m (wGrad net y Lf (m + 1)))
        (dB.set m (bGrad net y Lf (m + 1)))
        (by simpa using hdW) (by simpa using hdB)
      refine ⟨by simpa using hL1, by simpa using hL2, ?_, ?_⟩
      · intro j
        rw [hW j]
        by_cases hj : j < m
        · rw [if_pos hj, if_pos (by omega)]
        · by_cases hj' : j = m
          · subst hj'
            rw [if_neg hj, if_pos (by omega)]
            exact getD_set_eq dW j _ [] (by omega)
          · rw [if_neg hj, if_neg (by omega)]
            exact getD_set_ne dW m j _ [] (by omega)
      · intro j
        rw [hB j]
        by_cases hj : j < m
        · rw [if_pos hj, if_pos (by omega)]
        · by_cases hj' : j = m
          · subst hj'
            rw [if_neg hj, if_pos (by omega)]
            exact getD_set_eq dB j _ [] (by omega)
          · rw [if_neg hj, if_neg (by omega)]
            exact getD_set_ne dB m j _ [] (by omega)

/-- `zip` only sees the common prefix of its arguments (Python's `zip`
truncation). -/
theorem zip_eq_zip_take {β γ : Type} :
    ∀ (X : List β) (Y : List γ), X.zip Y = (X.take Y.length).zip (Y.take X.length) := by
  intro X
  induction X with
  | nil => intro Y; simp
  | cons x xs ih =>
      intro Y
      cases Y with
      | nil => simp
      | cons y ys => simp [ih ys]

/-- Indexing a list by the full ascending index block recovers the list. -/
theorem map_getD_upList {β : Type} (X : List β) (d : β) :
    (upList 0 X.length).map (fun k => X.getD k d) = X := by
  apply list_eq_of_getD _ _ d
  · rw [List.length_map, upList_length]
  · intro j hj
    rw [List.length_map, upList_length] at hj
    rw [upList_map_getD _ X.length 0 j d hj, Nat.zero_add]

/-! ## Claims -/

/-- C4 (counterexample): with one accumulated per-sample gradient, a `step()`
call leaves the accumulator sequences nonempty — `step` never empties them. -/
theorem c4_step_counterexample :
    (Network.step exNet2g).d_weights ≠ [] ∧ (Network.step exNet2g).d_bias ≠ [] := by
  exact ⟨by decide, by decide⟩

/-- C4 (amended): `step()` leaves the accumulator sequences `d_weights` and
`d_bias` exactly as they were; they are emptied by `clear()`, and one epoch of
`fit` (which calls `clear()` immediately after its single `step()`) ends with
both accumulators empty. -/
theorem c4_step_preserves_accumulators {α : Type} [Field α] (net : Network α)
    (Lf : LossFn α) (X Y : List (Vec α)) :
    (Network.step net).d_weights = net.d_weights ∧
    (Network.step net).d_bias = net.d_bias ∧
    (Network.clear net).d_weights = [] ∧
    (Network.clear net).d_bias = [] ∧
    (Network.fitEpoch net Lf X Y).d_weights = [] ∧
    (Network.fitEpoch net Lf X Y).d_bias = [] :=
  ⟨rfl, rfl, rfl, rfl, rfl, rfl⟩

/-- C5 (code evaluated at the failing input): on a network whose gradient
accumulators are empty, `step()` computes `np.array([]).mean(axis=0)` — NaN —
and subtracts it from every parameter, so the weight matrix `[[1]]` and the
bias `[0]` both become NaN rather than staying unchanged. -/
theorem c5_step_empty_corrupts :
    exNet2.d_weights = [] ∧ exNet2.d_bias = [] ∧
    exNet2.weights = [[[Fl.val 1]]] ∧ exNet2.bias = [[Fl.val 0]] ∧
    (Network.step exNet2).weights = [[[Fl.nan]]] ∧
    (Network.step exNet2).bias = [[Fl.nan]] := by
  exact ⟨rfl, rfl, rfl, rfl, by decide, by decide⟩

/-- C1: `backward(y, loss_fn)` walks the layers from the last down to (not
including) 0.  The appended per-layer gradients follow the `gSpec`
recurrence: at the last layer `dC_dA` is the loss derivative at the cached
post-activation, broadcast to the layer width; at interior layers it is
`g_{i+1}^T @ W_{i+1}` from the cached combined term one layer closer to the
output; at every layer the activation derivative is evaluated at the cached
post-activation `a_i`, the combined term is `g = dC_dA * dA_dZ`, the weight
gradient `learning_rate * (g @ a_{i-1}^T)` and the bias gradient
`learning_rate * g` are appended — and no weight matrix, bias vector, or
cache is modified. -/
theorem c1_backward_gradients (net : Network α) (y : Vec α) (Lf : LossFn α)
    (h : net.wf) :
    (Network.backward net y Lf).weights = net.weights ∧
    (Network.backward net y Lf).bias = net.bias ∧
    (Network.backward net y Lf).zs = net.zs ∧
    (Network.backward net y Lf).acts = net.acts ∧
    (Network.backward net y Lf).d_weights = net.d_weights ++ [dwSpec net y Lf] ∧
    (Network.backward net y Lf).d_bias = net.d_bias ++ [dbSpec net y Lf] := by
  obtain ⟨hn, hf, hw, hb, hzs, hacts⟩ := h
  have hnum : net.numLayers = net.widths.length := rfl
  have hc : cacheA net y Lf (net.numLayers - 1) = [] := by
    unfold cacheA
    rw [show net.numLayers - 1 - (net.numLayers - 1) = 0 from by omega]
    rfl
  have hspec := backwardLoop_spec net y Lf (net.numLayers - 1) le_rfl
    net.weights net.bias (by omega) (by omega)
  rw [hc] at hspec
  obtain ⟨hL1, hL2, hW, hB⟩ := hspec
  have hres1 : (backwardLoop net y Lf net.numLayers (net.numLayers - 1)
      ([], net.weights, net.bias)).2.1 = dwSpec net y Lf := by
    apply list_eq_of_getD _ _ []
    · rw [hL1]
      unfold dwSpec
      rw [List.length_map, upList_length]
      omega
    · intro j hj
      rw [hL1] at hj
      rw [hW j, if_pos (by omega)]
      unfold dwSpec
      rw [upList_map_getD (wGrad net y Lf) (net.numLayers - 1) 1 j [] (by omega)]
      rw [Nat.add_comm 1 j]
  have hres2 : (backwardLoop net y Lf net.numLayers (net.numLayers - 1)
      ([], net.weights, net.bias)).2.2 = dbSpec net y Lf := by
    apply list_eq_of_getD _ _ []
    · rw [hL2]
      unfold dbSpec
      rw [List.length_map, upList_length]
      omega
    · intro j hj
      rw [hL2] at hj
      rw [hB j, if_pos (by omega)]
      unfold dbSpec
      rw [upList_map_getD (bGrad net y Lf) (net.numLayers - 1) 1 j [] (by omega)]
      rw [Nat.add_comm 1 j]
  refine ⟨rfl, rfl, rfl, rfl, ?_, ?_⟩
  · show net.d_weights ++ [(backwardLoop net y Lf net.numLayers (net.numLayers - 1)
        ([], net.weights, net.bias)).2.1] = _
    rw [hres1]
  · show net.d_bias ++ [(backwardLoop net y Lf net.numLayers (net.numLayers - 1)
        ([], net.weights, net.bias)).2.2] = _
    rw [hres2]

/-- C1 witness: the backward characterization holds for the concrete
three-layer network `exNet3`, target `[0]`, and the difference loss. -/
theorem c1_backward_gradients_witness :
    exNet3.wf ∧
    ((Network.backward exNet3 [Fl.val 0] diffLoss).weights = exNet3.weights ∧
     (Network.backward exNet3 [Fl.val 0] diffLoss).bias = exNet3.bias ∧
     (Network.backward exNet3 [Fl.val 0] diffLoss).zs = exNet3.zs ∧
     (Network.backward exNet3 [Fl.val 0] diffLoss).acts = exNet3.acts ∧
     (Network.backward exNet3 [Fl.val 0] diffLoss).d_weights
       = exNet3.d_weights ++ [dwSpec exNet3 [Fl.val 0] diffLoss] ∧
     (Network.backward exNet3 [Fl.val 0] diffLoss).d_bias
       = exNet3.d_bias ++ [dbSpec exNet3 [Fl.val 0] diffLoss]) :=
  ⟨by decide, c1_backward_gradients exNet3 [Fl.val 0] diffLoss (by decide)⟩

/-- C2: `forward(x)` stores `x` in the input layer's activation cache and,
for each subsequent layer in increasing order, stores the pre-activation
`z_i = a_{i-1} @ W_i^T + b_i` and post-activation `a_i = f_i(z_i)`, returning
the final layer's post-activation. -/
theorem c2_forward_spec (net : Network α) (x : Vec α) (h : net.wf) :
    ((net.forward x).1.acts.getD 0 [] = x) ∧
    (∀ i, 1 ≤ i → i < net.numLayers → (net.forward x).1.zs.getD i [] = zSpec net x i) ∧
    (∀ i, i < net.numLayers → (net.forward x).1.acts.getD i [] = aSpec net x i) ∧
    (net.forward x).2 = aSpec net x (net.numLayers - 1) := by
  obtain ⟨hn, hf, hw, hb, hzs, hacts⟩ := h
  have hnum : net.numLayers = net.widths.length := rfl
  have h0 : (net.acts.set 0 x).length = net.numLayers := by simpa using hacts
  have hsp : (net.acts.set 0 x).getD (1 - 1) [] = aSpec net x (1 - 1) := by
    simpa using getD_set_eq net.acts 0 x [] (by omega)
  obtain ⟨L1, L2, A1, A2, Z1, Z2⟩ :=
    forwardLoop_spec net x (net.numLayers - 1) 1 net.zs (net.acts.set 0 x)
      (le_refl 1) hzs h0 (by omega) hsp
  refine ⟨?_, ?_, ?_, ?_⟩
  · show (forwardLoop net 1 (net.numLayers - 1) (net.zs, net.acts.set 0 x)).2.getD 0 [] = x
    rw [A1 0 (by omega)]
    exact getD_set_eq net.acts 0 x [] (by omega)
  · intro i hi hi'
    show (forwardLoop net 1 (net.numLayers - 1) (net.zs, net.acts.set 0 x)).1.getD i []
        = zSpec net x i
    exact Z2 i hi (by omega)
  · intro i hi
    show (forwardLoop net 1 (net.numLayers - 1) (net.zs, net.acts.set 0 x)).2.getD i []
        = aSpec net x i
    by_cases hi0 : i = 0
    · subst hi0
      rw [A1 0 (by omega)]
      exact getD_set_eq net.acts 0 x [] (by omega)
    · exact A2 i (by omega) (by omega)
  · show (forwardLoop net 1 (net.numLayers - 1) (net.zs, net.acts.set 0 x)).2.getD
        ((forwardLoop net 1 (net.numLayers - 1) (net.zs, net.acts.set 0 x)).2.length - 1) []
        = aSpec net x (net.numLayers - 1)
    rw [L2]
    exact A2 (net.numLayers - 1) (by omega) (by omega)

/-- C3: with `n ≥ 1` accumulated per-sample gradients, `step()` subtracts,
for every non-input layer, the elementwise mean of the accumulated weight
gradients from the weight matrix and the elementwise mean of the accumulated
bias gradients from the bias vector, in place, and changes nothing else. -/
theorem c3_step_subtracts_mean (net : Network α) (n : Nat) (h : net.wf)
    (hdw : net.d_weights.length = n) (hdb : net.d_bias.length = n) (hn : 1 ≤ n) :
    ((Network.step net).weights.length = net.weights.length) ∧
    (∀ i, i < net.weights.length →
       (Network.step net).weights.getD i []
         = matSub (net.weights.getD i [])
             (matMean (net.d_weights.map (fun s => s.getD i [])))) ∧
    ((Network.step net).bias.length = net.bias.length) ∧
    (∀ i, i < net.weights.length →
       (Network.step net).bias.getD i []
         = vecSub (net.bias.getD i [])
             (vecMean (net.d_bias.map (fun s => s.getD i [])))) ∧
    (Network.step net).widths = net.widths ∧
    (Network.step net).f = net.f ∧
    (Network.step net).zs = net.zs ∧
    (Network.step net).acts = net.acts ∧
    (Network.step net).d_weights = net.d_weights ∧
    (Network.step net).d_bias = net.d_bias ∧
    (Network.step net).learning_rate = net.learning_rate := by
  obtain ⟨hn2, hf, hw, hb, hzs, hacts⟩ := h
  have hWval : ∀ i, stepW net i
      = matSub (net.weights.getD i [])
          (matMean (net.d_weights.map (fun s => s.getD i []))) := by
    intro i
    unfold stepW
    cases hdwl : net.d_weights with
    | nil => rw [hdwl] at hdw; simp at hdw; omega
    | cons a l => simp
  have hBval : ∀ i, stepB net i
      = vecSub (net.bias.getD i [])
          (vecMean (net.d_bias.map (fun s => s.getD i []))) := by
    intro i
    unfold stepB
    cases hdbl : net.d_bias with
    | nil => rw [hdbl] at hdb; simp at hdb; omega
    | cons a l => simp
  refine ⟨?_, ?_, ?_, ?_, rfl, rfl, rfl, rfl, rfl, rfl, rfl⟩
  · exact setEach_length _ _ _
  · intro i hi
    show (setEach (stepW net) (upList 0 net.weights.length) net.weights).getD i [] = _
    rw [setEach_upList_getD (stepW net) net.weights.length 0 net.weights i []
      (by omega) (by omega) hi]
    exact hWval i
  · exact setEach_length _ _ _
  · intro i hi
    show (setEach (stepB net) (upList 0 net.weights.length) net.bias).getD i [] = _
    rw [setEach_upList_getD (stepB net) net.weights.length 0 net.bias i []
      (by omega) (by omega) (by omega)]
    exact hBval i

/-- C3 witness: the mean-subtraction characterization holds for `exNet2g`,
which carries exactly one accumulated per-sample gradient. -/
theorem c3_step_subtracts_mean_witness :
    exNet2g.wf ∧ exNet2g.d_weights.length = 1 ∧ exNet2g.d_bias.length = 1 ∧
    (((Network.step exNet2g).weights.length = exNet2g.weights.length) ∧
     (∀ i, i < exNet2g.weights.length →
        (Network.step exNet2g).weights.getD i []
          = matSub (exNet2g.weights.getD i [])
              (matMean (exNet2g.d_weights.map (fun s => s.getD i [])))) ∧
     ((Network.step exNet2g).bias.length = exNet2g.bias.length) ∧
     (∀ i, i < exNet2g.weights.length →
        (Network.step exNet2g).bias.getD i []
          = vecSub (exNet2g.bias.getD i [])
              (vecMean (exNet2g.d_bias.map (fun s => s.getD i [])))) ∧
     (Network.step exNet2g).widths = exNet2g.widths ∧
     (Network.step exNet2g).f = exNet2g.f ∧
     (Network.step exNet2g).zs = exNet2g.zs ∧
     (Network.step exNet2g).acts = exNet2g.acts ∧
     (Network.step exNet2g).d_weights = exNet2g.d_weights ∧
     (Network.step exNet2g).d_bias = exNet2g.d_bias ∧
     (Network.step exNet2g).learning_rate = exNet2g.learning_rate) :=
  ⟨by decide, rfl, rfl, c3_step_subtracts_mean exNet2g 1 (by decide) rfl rfl (le_refl 1)⟩

/-- C2 witness: the forward characterization holds for the concrete
three-layer network `exNet3` on input `[1]`. -/
theorem c2_forward_spec_witness :
    exNet3.wf ∧
    (((exNet3.forward [Fl.val 1]).1.acts.getD 0 [] = [Fl.val 1]) ∧
     (∀ i, 1 ≤ i → i < exNet3.numLayers →
        (exNet3.forward [Fl.val 1]).1.zs.getD i [] = zSpec exNet3 [Fl.val 1] i) ∧
     (∀ i, i < exNet3.numLayers →
        (exNet3.forward [Fl.val 1]).1.acts.getD i [] = aSpec exNet3 [Fl.val 1] i) ∧
     (exNet3.forward [Fl.val 1]).2 = aSpec exNet3 [Fl.val 1] (exNet3.numLayers - 1)) :=
  ⟨by decide, c2_forward_spec exNet3 [Fl.val 1] (by decide)⟩

/-- C8: for every nonempty row, the softmax inside `CE` sums to 1, and it is
invariant under adding the same constant to every element of the row. -/
theorem c8_softmax_sum_shift (x : List ℝ) (hx : x ≠ []) :
    (CE.softmax x).sum = 1 ∧
    ∀ c : ℝ, CE.softmax (x.map (fun v => v + c)) = CE.softmax x := by
  constructor
  · have hpos : 0 < (x.map (fun v => Real.exp (v - listMax x))).sum := by
      apply List.sum_pos
      · intro y hy
        rcases List.mem_map.1 hy with ⟨v, _, rfl⟩
        exact Real.exp_pos _
      · simpa using hx
    unfold CE.softmax
    rw [sum_map_div, div_self hpos.ne']
  · intro c
    simp only [CE.softmax]
    rw [listMax_map_add x hx c]
    have hexps : List.map (fun v => Real.exp (v - (listMax x + c)))
          (List.map (fun v => v + c) x)
        = List.map (fun v => Real.exp (v - listMax x)) x := by
      rw [List.map_map]
      apply List.map_congr_left
      intro v _
      simp only [Function.comp]
      congr 1
      ring
    rw [hexps]

/-- C8 witness: the properties hold at the concrete row `[1]`. -/
theorem c8_softmax_sum_shift_witness :
    ([1] : List ℝ) ≠ [] ∧
    ((CE.softmax [1]).sum = 1 ∧
      ∀ c : ℝ, CE.softmax ([1].map (fun v => v + c)) = CE.softmax [1]) :=
  ⟨by simp, c8_softmax_sum_shift [1] (by simp)⟩

/-- C9: `Sigmoid.activation` applies, per element, `1/(1+exp(-t))` when
`t ≥ 0` and `exp(t)/(1+exp(t))` otherwise; both branches agree with the exact
sigmoid `1/(1+exp(-t))`; and `Sigmoid.derivative` is
`activation * (1 - activation)` elementwise. -/
theorem c9_sigmoid_branches_derivative :
    (∀ l : List ℝ, Sigmoid.activation l
        = l.map (fun t => if 0 ≤ t then sigmoidPos t else sigmoidNeg t)) ∧
    (∀ t : ℝ, sigmoidFn t = 1 / (1 + Real.exp (-t))) ∧
    (∀ t : ℝ, sigmoidNeg t = sigmoidPos t) ∧
    (∀ l : List ℝ, Sigmoid.derivative l
        = (Sigmoid.activation l).map (fun s => s * (1 - s))) := by
  refine ⟨fun l => rfl, sigmoidFn_eq, fun t => ?_, fun l => rfl⟩
  unfold sigmoidNeg sigmoidPos
  have he : (0:ℝ) < Real.exp t := Real.exp_pos t
  rw [Real.exp_neg]
  field_simp
  ring

/-- C10: every element of `Sigmoid.activation` lies in `[0, 1]`, and every
element of `Sigmoid.derivative` lies in `[0, 1/4]`. -/
theorem c10_sigmoid_range (l : List ℝ) :
    (∀ v ∈ Sigmoid.activation l, 0 ≤ v ∧ v ≤ 1) ∧
    (∀ v ∈ Sigmoid.derivative l, 0 ≤ v ∧ v ≤ 1 / 4) := by
  constructor
  · intro v hv
    rcases List.mem_map.1 hv with ⟨t, _, rfl⟩
    exact sigmoidFn_bounds t
  · intro v hv
    rcases List.mem_map.1 hv with ⟨s, hs, rfl⟩
    rcases List.mem_map.1 hs with ⟨t, _, rfl⟩
    obtain ⟨h0, h1⟩ := sigmoidFn_bounds t
    constructor
    · have : 1 - sigmoidFn t ≥ 0 := by linarith
      positivity
    · nlinarith [sq_nonneg (sigmoidFn t - 1 / 2)]

/-- C10 witness: the bounds hold at the concrete element produced from the
input array `[0]`. -/
theorem c10_sigmoid_range_witness :
    sigmoidFn 0 ∈ Sigmoid.activation [0] ∧ (0 ≤ sigmoidFn 0 ∧ sigmoidFn 0 ≤ 1) :=
  have hm : sigmoidFn 0 ∈ Sigmoid.activation [0] := by
    simp [Sigmoid.activation]
  ⟨hm, (c10_sigmoid_range [0]).1 (sigmoidFn 0) hm⟩

/-- C6 (counterexample): `fit` performs no dimension check.  With `X` of
length 2 and `Y` of length 1, one `fit` epoch runs the forward/backward/step
work to completion (the forward caches record the pass over the zipped pair)
instead of raising an assertion before the epoch's work. -/
theorem c6_fit_no_assert_counterexample :
    ([[Fl.val 2], [Fl.val 3]] : List (Vec (ZMod 101))).length
        ≠ ([[Fl.val 0]] : List (Vec (ZMod 101))).length ∧
    (Network.fitEpoch exNet2 diffLoss [[Fl.val 2], [Fl.val 3]] [[Fl.val 0]]).acts
        = [[Fl.val 2], [Fl.val 2]] ∧
    exNet2.acts = [[Fl.val 0], [Fl.val 0]] :=
  ⟨by decide, by decide, rfl⟩

/-- C6 (amended): only `minibatch_fit` detects misaligned leading dimensions
— its reader's assertion aborts the epoch before any forward/backward/step
work; `fit` performs no check and silently trains on the zip-truncated
prefix of the two sequences. -/
theorem c6_mismatch_behaviour (net : Network α) (Lf : LossFn α) :
    (∀ (X Y : List (Vec α)) (perm : List Nat) (bs : Nat),
       X.length ≠ Y.length →
       Network.minibatchFitEpoch net Lf X Y perm bs = .error ()) ∧
    (∀ (X Y : List (Vec α)),
       Network.fitEpoch net Lf X Y
         = Network.fitEpoch net Lf (X.take Y.length) (Y.take X.length)) := by
  constructor
  · intro X Y perm bs hxy
    unfold Network.minibatchFitEpoch minibatchReader
    have hd : ([X.length, Y.length] : List Nat).dedup = [X.length, Y.length] := by
      rw [List.dedup_cons_of_not_mem, List.dedup_cons_of_not_mem, List.dedup_nil]
      · simp
      · simpa using hxy
    rw [if_neg (by rw [hd]; simp)]
  · intro X Y
    unfold Network.fitEpoch
    rw [zip_eq_zip_take X Y]

/-- C6 witness: the reader's assertion fires on the concrete mismatched
dataset with `|X| = 2`, `|Y| = 1`. -/
theorem c6_mismatch_behaviour_witness :
    (([[Fl.val 2], [Fl.val 3]] : List (Vec (ZMod 101))).length
        ≠ ([[Fl.val 0]] : List (Vec (ZMod 101))).length) ∧
    Network.minibatchFitEpoch exNet2 diffLoss
        [[Fl.val 2], [Fl.val 3]] [[Fl.val 0]] [] 1 = .error () :=
  ⟨by decide,
   (c6_mismatch_behaviour exNet2 diffLoss).1 [[Fl.val 2], [Fl.val 3]] [[Fl.val 0]] [] 1
     (by decide)⟩

/-- C7 (counterexample): on the empty dataset (`n = 0`, `batch_size = 0`)
the two trainers disagree: `minibatch_fit` yields no batches and never calls
`step()`, leaving the network untouched, while `fit` calls `step()` on empty
accumulators and NaN-corrupts the weights. -/
theorem c7_empty_dataset_counterexample :
    Network.minibatchFitEpoch exNet2 diffLoss [] [] [] 0 = .ok exNet2 ∧
    (Network.fitEpoch exNet2 diffLoss [] []).weights = [[[Fl.nan]]] ∧
    exNet2.weights = [[[Fl.val 1]]] ∧
    ¬ (Network.minibatchFitEpoch exNet2 diffLoss [] [] [] 0
        = Except.ok (Network.fitEpoch exNet2 diffLoss [] [])) := by
  refine ⟨rfl, by decide, rfl, ?_⟩
  intro hEq
  have h1 : Network.minibatchFitEpoch exNet2 diffLoss [] [] [] 0 = .ok exNet2 := rfl
  rw [h1] at hEq
  have h3 : exNet2.weights = (Network.fitEpoch exNet2 diffLoss [] []).weights :=
    congrArg Network.weights (Except.ok.inj hEq)
  have h4 : (Network.fitEpoch exNet2 diffLoss [] []).weights = [[[Fl.nan]]] := by decide
  exact absurd (h3.trans h4) (by decide)

/-- C7 (amended): for every dataset of `n ≥ 1` samples, one epoch of
`minibatch_fit` with `batch_size = n` and the identity permutation (identical
sample order) performs exactly one batch — the whole dataset — accumulating
the same per-sample gradients as one epoch of `fit` and making a single
`step()` (and `clear()`) call, hence producing the same parameter update. -/
theorem c7_full_batch_equals_fit (net : Network α) (Lf : LossFn α)
    (X Y : List (Vec α)) (n : Nat)
    (hX : X.length = n) (hY : Y.length = n) (hn : 1 ≤ n) :
    Network.minibatchFitEpoch net Lf X Y (upList 0 n) n
      = .ok (Network.fitEpoch net Lf X Y) := by
  obtain ⟨m, rfl⟩ : ∃ m, n = m + 1 := ⟨n - 1, by omega⟩
  have hperm : (upList 0 (m + 1)).length = m + 1 := upList_length _ _
  have hslice : slice (upList 0 (m + 1)) 0 (min (0 + (m + 1)) (m + 1))
      = upList 0 (m + 1) := by
    unfold slice
    rw [List.drop_zero, Nat.zero_add, Nat.min_self, Nat.sub_zero]
    exact List.take_of_length_le (by rw [hperm])
  have hchunks : sliceChunks (upList 0 (m + 1)) (m + 1) (m + 1) (m + 1 + 1) 0
      = [upList 0 (m + 1)] := by
    rw [sliceChunks, if_neg (by omega), hslice]
    rw [show (0 + (m + 1)) = m + 1 from by omega]
    rw [sliceChunks, if_pos (le_refl (m + 1))]
  have hreader : minibatchReader [X.length, Y.length] (upList 0 (m + 1)) (m + 1)
      = .ok [upList 0 (m + 1)] := by
    unfold minibatchReader
    rw [hX, hY]
    have hd : ([m + 1, m + 1] : List Nat).dedup = [m + 1] := by
      rw [List.dedup_cons_of_mem (by simp), List.dedup_cons_of_not_mem (by simp),
        List.dedup_nil]
    rw [if_pos (by rw [hd]; rfl)]
    rw [show ([m + 1, m + 1] : List Nat).headD 0 = m + 1 from rfl, hchunks]
  unfold Network.minibatchFitEpoch
  rw [hX, hY] at hreader ⊢
  rw [hreader]
  simp only [List.foldl_cons, List.foldl_nil]
  have hsubX : (upList 0 (m + 1)).map (fun k => X.getD k []) = X := by
    rw [← hX, map_getD_upList]
  have hsubY : (upList 0 (m + 1)).map (fun k => Y.getD k []) = Y := by
    rw [← hY, map_getD_upList]
  simp only [hsubX, hsubY]
  rfl

/-- C7 witness: the equality holds on a concrete singleton dataset with
`batch_size = 1`. -/
theorem c7_full_batch_equals_fit_witness :
    ([[Fl.val 2]] : List (Vec (ZMod 101))).length = 1 ∧
    ([[Fl.val 0]] : List (Vec (ZMod 101))).length = 1 ∧
    Network.minibatchFitEpoch exNet2 diffLoss [[Fl.val 2]] [[Fl.val 0]] (upList 0 1) 1
      = .ok (Network.fitEpoch exNet2 diffLoss [[Fl.val 2]] [[Fl.val 0]]) :=
  ⟨rfl, rfl,
   c7_full_batch_equals_fit exNet2 diffLoss [[Fl.val 2]] [[Fl.val 0]] 1 rfl rfl
     (le_refl 1)⟩

end NN
